import Mathlib

/-!
Verification of the Zobrist constant-table generator
(`gui/src/grid/chess/make_constants.py`).

The script is embedded shallowly: the random source is an abstract stream
`s : Nat → Nat`; the n-th call of `random.getrandbits(64)` returns
`s n % 2 ^ 64` (64 random bits).  The file handle is embedded as the list of
strings passed to `f.write`, in order; the file content is their
concatenation.  Python's `{val:016X}` format is embedded as uppercase
hexadecimal digits, zero-padded on the left to width 16.
-/

/-- One uppercase hexadecimal digit character (`0`-`9`, `A`-`F`) for `d < 16`. -/
def hexDigit (d : Nat) : Char :=
  if d < 10 then Char.ofNat (48 + d) else Char.ofNat (55 + d)

/-- Uppercase hexadecimal digits of `n`, most significant first (`{n:X}`). -/
def hexDigits (n : Nat) : List Char :=
  if _h : n < 16 then [hexDigit n]
  else hexDigits (n / 16) ++ [hexDigit (n % 16)]
decreasing_by exact Nat.div_lt_self (by omega) (by norm_num)

/-- Python's 016X format: uppercase hex, zero-padded on the left to width 16. -/
def format016X (n : Nat) : List Char :=
  List.replicate (16 - (hexDigits n).length) '0' ++ hexDigits n

/-- The f-string the script writes for one scalar: 8 spaces, 0x, the value as
16 zero-padded uppercase hex digits, the u64 suffix, a comma and a newline. -/
def valueLine (v : Nat) : String :=
  "        0x" ++ String.mk (format016X v) ++ "u64,\n"

/-- State of the script: how many random draws have happened, and the strings
passed to `f.write` so far (in order). -/
structure ScriptState where
  drawn : Nat
  written : List String

/-- Embeds `f.write(str)`: one more string written to the handle. -/
def fwrite (str : String) (st : ScriptState) : ScriptState :=
  ⟨st.drawn, st.written ++ [str]⟩

/-- Embeds `random.getrandbits(64)`: the next 64-bit value of the stream. -/
def getrandbits64 (s : Nat → Nat) (st : ScriptState) : Nat × ScriptState :=
  (s st.drawn % 2 ^ 64, ⟨st.drawn + 1, st.written⟩)

/-- The innermost loop: 256 draws, each written as one scalar line. -/
def innerLoop (s : Nat → Nat) (st : ScriptState) : ScriptState :=
  (List.range 256).foldl (fun st _ =>
    let p := getrandbits64 s st
    fwrite (valueLine p.1) p.2) st

/-- The middle `for _ in range(8)` loop body and loop. -/
def middleLoop (s : Nat → Nat) (st : ScriptState) : ScriptState :=
  (List.range 8).foldl (fun st _ =>
    fwrite "    ],\n" (innerLoop s (fwrite "    [\n" st))) st

/-- The outer `for _ in range(8)` loop. -/
def outerLoop (s : Nat → Nat) (st : ScriptState) : ScriptState :=
  (List.range 8).foldl (fun st _ =>
    fwrite "    ],\n" (middleLoop s (fwrite "    [\n" st))) st

/-- The whole script body: the sequence of strings passed to `f.write`. -/
def script_writes (s : Nat → Nat) : List String :=
  (fwrite "]\n" (outerLoop s (fwrite "[\n" ⟨0, []⟩))).written

/-- The content of `table_values.rs` after a successful run of the script. -/
def run_script (s : Nat → Nat) : String :=
  String.join (script_writes s)

/-- The 256 values drawn for one innermost block, starting at draw `base`. -/
def genInner (s : Nat → Nat) (base : Nat) : List Nat :=
  (List.range 256).map fun k => s (base + k) % 2 ^ 64

/-- The 8 innermost blocks of one middle block, starting at draw `base`. -/
def genMiddle (s : Nat → Nat) (base : Nat) : List (List Nat) :=
  (List.range 8).map fun j => genInner s (base + 256 * j)

/-- The `[8][8][256]` table of 64-bit values the script draws, in draw order
(spec operation `generate_table`). -/
def generate_table (s : Nat → Nat) : List (List (List Nat)) :=
  (List.range 8).map fun i => genMiddle s (2048 * i)

/-- Serialization of one innermost block, exactly as the script writes it. -/
def serialize_inner (vals : List Nat) : String :=
  "    [\n" ++ String.join (vals.map valueLine) ++ "    ],\n"

/-- Serialization of one middle block, exactly as the script writes it. -/
def serialize_middle (m : List (List Nat)) : String :=
  "    [\n" ++ String.join (m.map serialize_inner) ++ "    ],\n"

/-- Serialization of a whole table, exactly as the script writes it
(spec operation `serialize_as_literal`). -/
def serialize_as_literal (t : List (List (List Nat))) : String :=
  "[\n" ++ String.join (t.map serialize_middle) ++ "]\n"

/-- The writes of one innermost block. -/
def innerWrites (s : Nat → Nat) (base : Nat) : List String :=
  "    [\n" :: (genInner s base).map valueLine ++ ["    ],\n"]

/-- The writes of one middle block. -/
def middleWrites (s : Nat → Nat) (base : Nat) : List String :=
  "    [\n" :: ((List.range 8).map fun j => innerWrites s (base + 256 * j)).flatten ++ ["    ],\n"]

/-- The writes of the whole script. -/
def topWrites (s : Nat → Nat) : List String :=
  "[\n" :: ((List.range 8).map fun i => middleWrites s (2048 * i)).flatten ++ ["]\n"]

theorem foldl_draw (s : Nat → Nat) (n : Nat) (st : ScriptState) :
    (List.range n).foldl (fun st _ =>
        let p := getrandbits64 s st
        fwrite (valueLine p.1) p.2) st =
      ⟨st.drawn + n,
       st.written ++ (List.range n).map fun k => valueLine (s (st.drawn + k) % 2 ^ 64)⟩ := by
  induction n with
  | zero => simp
  | succ m ih =>
    rw [List.range_succ, List.foldl_append, ih]
    simp [getrandbits64, fwrite, List.range_succ, List.append_assoc]
    omega

theorem innerLoop_eq (s : Nat → Nat) (st : ScriptState) :
    innerLoop s st = ⟨st.drawn + 256, st.written ++ (genInner s st.drawn).map valueLine⟩ := by
  rw [innerLoop, foldl_draw]
  simp [genInner, List.map_map, Function.comp]

theorem foldl_middle (s : Nat → Nat) (n : Nat) (st : ScriptState) :
    (List.range n).foldl (fun st _ =>
        fwrite "    ],\n" (innerLoop s (fwrite "    [\n" st))) st =
      ⟨st.drawn + 256 * n,
       st.written ++ ((List.range n).map fun j => innerWrites s (st.drawn + 256 * j)).flatten⟩ := by
  induction n with
  | zero => simp
  | succ m ih =>
    rw [List.range_succ, List.foldl_append, ih]
    simp [fwrite, innerLoop_eq, innerWrites, List.range_succ, List.map_append,
      List.flatten_append, List.append_assoc, Nat.mul_succ]
    omega

theorem middleLoop_eq (s : Nat → Nat) (st : ScriptState) :
    middleLoop s st =
      ⟨st.drawn + 2048,
       st.written ++ ((List.range 8).map fun j => innerWrites s (st.drawn + 256 * j)).flatten⟩ := by
  rw [middleLoop, foldl_middle]

theorem foldl_outer (s : Nat → Nat) (n : Nat) (st : ScriptState) :
    (List.range n).foldl (fun st _ =>
        fwrite "    ],\n" (middleLoop s (fwrite "    [\n" st))) st =
      ⟨st.drawn + 2048 * n,
       st.written ++ ((List.range n).map fun i => middleWrites s (st.drawn + 2048 * i)).flatten⟩ := by
  induction n with
  | zero => simp
  | succ m ih =>
    rw [List.range_succ, List.foldl_append, ih]
    simp [fwrite, middleLoop_eq, middleWrites, List.range_succ, List.map_append,
      List.flatten_append, List.append_assoc, Nat.mul_succ]
    omega

theorem script_writes_eq (s : Nat → Nat) : script_writes s = topWrites s := by
  rw [script_writes, outerLoop, foldl_outer]
  simp [fwrite, topWrites, List.append_assoc]

theorem foldl_append_data (l : List String) (a : String) :
    (l.foldl (fun r s => r ++ s) a).data = a.data ++ (l.map String.data).flatten := by
  induction l generalizing a with
  | nil => simp
  | cons x xs ih => simp [ih, String.data_append, List.append_assoc]

theorem join_data (l : List String) : (String.join l).data = (l.map String.data).flatten := by
  rw [String.join, foldl_append_data]
  simp

theorem join_cons (a : String) (l : List String) :
    String.join (a :: l) = a ++ String.join l := by
  ext1
  simp [join_data, String.data_append]

theorem join_append (l1 l2 : List String) :
    String.join (l1 ++ l2) = String.join l1 ++ String.join l2 := by
  ext1
  simp [join_data, String.data_append]

theorem join_flatten (L : List (List String)) :
    String.join L.flatten = String.join (L.map String.join) := by
  induction L with
  | nil => rfl
  | cons x xs ih => simp [List.flatten_cons, join_append, join_cons, ih]

theorem innerWrites_data (s : Nat → Nat) (base : Nat) :
    ((innerWrites s base).map String.data).flatten = (serialize_inner (genInner s base)).data := by
  simp [innerWrites, serialize_inner, join_data, String.data_append, List.append_assoc]

theorem middleWrites_data (s : Nat → Nat) (base : Nat) :
    ((middleWrites s base).map String.data).flatten = (serialize_middle (genMiddle s base)).data := by
  simp [middleWrites, serialize_middle, genMiddle, join_data, String.data_append,
    List.map_map, Function.comp, List.append_assoc]
  rw [List.flatten_flatten, List.map_map]
  apply congrArg List.flatten
  apply List.map_congr_left
  intro j hj
  simp [Function.comp, innerWrites_data]

theorem run_script_eq_serialize (s : Nat → Nat) :
    run_script s = serialize_as_literal (generate_table s) := by
  ext1
  rw [run_script, script_writes_eq]
  simp [topWrites, serialize_as_literal, generate_table, join_data, String.data_append,
    List.map_map, Function.comp, List.append_assoc]
  rw [List.flatten_flatten, List.map_map]
  apply congrArg List.flatten
  apply List.map_congr_left
  intro i hi
  simp [Function.comp, middleWrites_data]

/-- Split a character list into lines at every newline character. -/
def splitLinesList : List Char → List (List Char)
  | [] => [[]]
  | c :: cs =>
    if c = '\n' then [] :: splitLinesList cs
    else
      match splitLinesList cs with
      | [] => [[c]]
      | l :: ls => (c :: l) :: ls

/-- The lines of a string (the last element is what follows the final newline). -/
def linesOf (str : String) : List (List Char) := splitLinesList str.data

/-- One scalar line without its trailing newline: 8 spaces, 0x, 16 hex digits,
the u64 suffix and a comma. -/
def valueBody (v : Nat) : List Char :=
  "        0x".data ++ format016X v ++ "u64,".data

/-- The lines of one serialized innermost block. -/
def innerLines (vals : List Nat) : List (List Char) :=
  "    [".data :: vals.map valueBody ++ ["    ],".data]

/-- The lines of one serialized middle block. -/
def middleLines (m : List (List Nat)) : List (List Char) :=
  "    [".data :: (m.map innerLines).flatten ++ ["    ],".data]

/-- The lines of a whole serialized table. -/
def tableLines (t : List (List (List Nat))) : List (List Char) :=
  "[".data :: (t.map middleLines).flatten ++ ["]".data]

theorem splitLinesList_line (l rest : List Char) (h : '\n' ∉ l) :
    splitLinesList (l ++ '\n' :: rest) = l :: splitLinesList rest := by
  induction l with
  | nil => simp [splitLinesList]
  | cons c cs ih =>
    have hc : ¬(c = '\n') := by
      intro e
      exact h (by simp [e])
    have h2 : '\n' ∉ cs := by
      intro m
      exact h (List.mem_cons_of_mem _ m)
    rw [List.cons_append, splitLinesList, if_neg hc, ih h2]

theorem splitLinesList_flatten (ws : List (List Char)) (h : ∀ w ∈ ws, '\n' ∉ w) :
    splitLinesList ((ws.map (fun w => w ++ ['\n'])).flatten) = ws ++ [[]] := by
  induction ws with
  | nil => simp [splitLinesList]
  | cons w ws ih =>
    simp only [List.map_cons, List.flatten_cons, List.append_assoc, List.singleton_append]
    rw [splitLinesList_line w _ (h w (by simp)), ih (fun x hx => h x (by simp [hx]))]
    rfl

theorem hexDigits_mem (n : Nat) : ∀ c ∈ hexDigits n, ∃ d, d < 16 ∧ c = hexDigit d := by
  induction n using Nat.strong_induction_on with
  | _ n ih =>
    rw [hexDigits]
    split
    next h =>
      intro c hc
      simp only [List.mem_singleton] at hc
      exact ⟨n, by omega, hc⟩
    next h =>
      intro c hc
      rcases List.mem_append.mp hc with h1 | h2
      · exact ih (n / 16) (Nat.div_lt_self (by omega) (by norm_num)) c h1
      · simp only [List.mem_singleton] at h2
        exact ⟨n % 16, Nat.mod_lt _ (by norm_num), h2⟩

/-- Uppercase hexadecimal digit characters: `0`-`9` or `A`-`F`. -/
def isUpperHexDigit (c : Char) : Bool :=
  (48 ≤ c.toNat && c.toNat ≤ 57) || (65 ≤ c.toNat && c.toNat ≤ 70)

theorem hexDigit_upperHex : ∀ d < 16, isUpperHexDigit (hexDigit d) = true := by decide

theorem format016X_mem (n : Nat) : ∀ c ∈ format016X n, isUpperHexDigit c = true := by
  intro c hc
  rcases List.mem_append.mp hc with h1 | h2
  · rw [List.eq_of_mem_replicate h1]
    decide
  · obtain ⟨d, hd, rfl⟩ := hexDigits_mem n c h2
    exact hexDigit_upperHex d hd

theorem upperHex_ne_newline (c : Char) (h : isUpperHexDigit c = true) : c ≠ '\n' := by
  intro e
  rw [e] at h
  simp [isUpperHexDigit] at h

theorem noNL_valueBody (v : Nat) : '\n' ∉ valueBody v := by
  intro hmem
  rw [valueBody] at hmem
  rcases List.mem_append.mp hmem with h1 | h2
  · rcases List.mem_append.mp h1 with h3 | h4
    · revert h3
      decide
    · exact upperHex_ne_newline _ (format016X_mem v _ h4) rfl
  · revert h2
    decide

theorem valueLine_data (v : Nat) : (valueLine v).data = valueBody v ++ ['\n'] := by
  have h1 : ("u64,\n" : String).data = ("u64," : String).data ++ ['\n'] := rfl
  simp [valueLine, valueBody, String.data_append, h1, List.append_assoc]

theorem serialize_inner_data (vals : List Nat) :
    (serialize_inner vals).data = ((innerLines vals).map (fun w => w ++ ['\n'])).flatten := by
  have h1 : ("    [\n" : String).data = ("    [" : String).data ++ ['\n'] := rfl
  have h2 : ("    ],\n" : String).data = ("    ]," : String).data ++ ['\n'] := rfl
  simp [serialize_inner, innerLines, join_data, String.data_append, List.map_map,
    Function.comp, valueLine_data, List.append_assoc, h1, h2]
  apply congrArg List.flatten
  apply List.map_congr_left
  intro v hv
  simp [Function.comp, valueLine_data]

theorem serialize_middle_data (m : List (List Nat)) :
    (serialize_middle m).data = ((middleLines m).map (fun w => w ++ ['\n'])).flatten := by
  have h1 : ("    [\n" : String).data = ("    [" : String).data ++ ['\n'] := rfl
  have h2 : ("    ],\n" : String).data = ("    ]," : String).data ++ ['\n'] := rfl
  simp [serialize_middle, middleLines, join_data, String.data_append, List.map_map,
    Function.comp, List.append_assoc, h1, h2]
  rw [List.flatten_flatten, List.map_map]
  apply congrArg List.flatten
  apply List.map_congr_left
  intro inn hinn
  simp [Function.comp, serialize_inner_data]

theorem serialize_table_data (t : List (List (List Nat))) :
    (serialize_as_literal t).data = ((tableLines t).map (fun w => w ++ ['\n'])).flatten := by
  have h1 : ("[\n" : String).data = ("[" : String).data ++ ['\n'] := rfl
  have h2 : ("]\n" : String).data = ("]" : String).data ++ ['\n'] := rfl
  simp [serialize_as_literal, tableLines, join_data, String.data_append, List.map_map,
    Function.comp, List.append_assoc, h1, h2]
  rw [List.flatten_flatten, List.map_map]
  apply congrArg List.flatten
  apply List.map_congr_left
  intro m hm
  simp [Function.comp, serialize_middle_data]

theorem innerLines_mem (vals : List Nat) (w : List Char) (hw : w ∈ innerLines vals) :
    w = "    [".data ∨ w = "    ],".data ∨ ∃ v ∈ vals, w = valueBody v := by
  rw [innerLines] at hw
  rcases List.mem_cons.mp hw with h | h
  · exact Or.inl h
  · rcases List.mem_append.mp h with h1 | h2
    · obtain ⟨v, hv, heq⟩ := List.mem_map.mp h1
      exact Or.inr (Or.inr ⟨v, hv, heq.symm⟩)
    · simp only [List.mem_singleton] at h2
      exact Or.inr (Or.inl h2)

theorem middleLines_mem (m : List (List Nat)) (w : List Char) (hw : w ∈ middleLines m) :
    w = "    [".data ∨ w = "    ],".data ∨ ∃ inn ∈ m, ∃ v ∈ inn, w = valueBody v := by
  rw [middleLines] at hw
  rcases List.mem_cons.mp hw with h | h
  · exact Or.inl h
  · rcases List.mem_append.mp h with h1 | h2
    · obtain ⟨ls, hls, hwls⟩ := List.mem_flatten.mp h1
      obtain ⟨inn, hinn, heq⟩ := List.mem_map.mp hls
      subst heq
      rcases innerLines_mem inn w hwls with h3 | h3 | ⟨v, hv, h3⟩
      · exact Or.inl h3
      · exact Or.inr (Or.inl h3)
      · exact Or.inr (Or.inr ⟨inn, hinn, v, hv, h3⟩)
    · simp only [List.mem_singleton] at h2
      exact Or.inr (Or.inl h2)

theorem tableLines_mem (t : List (List (List Nat))) (w : List Char) (hw : w ∈ tableLines t) :
    w = "[".data ∨ w = "]".data ∨ w = "    [".data ∨ w = "    ],".data ∨
      ∃ m ∈ t, ∃ inn ∈ m, ∃ v ∈ inn, w = valueBody v := by
  rw [tableLines] at hw
  rcases List.mem_cons.mp hw with h | h
  · exact Or.inl h
  · rcases List.mem_append.mp h with h1 | h2
    · obtain ⟨ls, hls, hwls⟩ := List.mem_flatten.mp h1
      obtain ⟨m, hm, heq⟩ := List.mem_map.mp hls
      subst heq
      rcases middleLines_mem m w hwls with h3 | h3 | ⟨inn, hinn, v, hv, h3⟩
      · exact Or.inr (Or.inr (Or.inl h3))
      · exact Or.inr (Or.inr (Or.inr (Or.inl h3)))
      · exact Or.inr (Or.inr (Or.inr (Or.inr ⟨m, hm, inn, hinn, v, hv, h3⟩)))
    · simp only [List.mem_singleton] at h2
      exact Or.inr (Or.inl h2)

theorem noNL_tableLines (t : List (List (List Nat))) : ∀ w ∈ tableLines t, '\n' ∉ w := by
  intro w hw
  rcases tableLines_mem t w hw with h | h | h | h | ⟨m, _, inn, _, v, _, h⟩ <;> subst h
  · decide
  · decide
  · decide
  · decide
  · exact noNL_valueBody v

theorem lines_serialize (t : List (List (List Nat))) :
    linesOf (serialize_as_literal t) = tableLines t ++ [[]] := by
  rw [linesOf, serialize_table_data]
  exact splitLinesList_flatten _ (noNL_tableLines t)

theorem lines_run_script (s : Nat → Nat) :
    linesOf (run_script s) = tableLines (generate_table s) ++ [[]] := by
  rw [run_script_eq_serialize, lines_serialize]

/-- Modelled from the spec: a hexadecimal digit of the target language's
integer-literal syntax (`0`-`9`, `A`-`F`, `a`-`f`), with its value. -/
def parseHexChar (c : Char) : Option Nat :=
  if 48 ≤ c.toNat ∧ c.toNat ≤ 57 then some (c.toNat - 48)
  else if 65 ≤ c.toNat ∧ c.toNat ≤ 70 then some (c.toNat - 55)
  else if 97 ≤ c.toNat ∧ c.toNat ≤ 102 then some (c.toNat - 87)
  else none

/-- Modelled from the spec: the numeric value of a string of hex digits,
left to right, starting from accumulator `acc`. -/
def hexValueAcc : Nat → List Char → Option Nat
  | acc, [] => some acc
  | acc, c :: cs =>
    match parseHexChar c with
    | some d => hexValueAcc (16 * acc + d) cs
    | none => none

theorem parseHexChar_hexDigit : ∀ d < 16, parseHexChar (hexDigit d) = some d := by decide

theorem hexValueAcc_append (xs : List Char) :
    ∀ acc ys, hexValueAcc acc (xs ++ ys) =
      (hexValueAcc acc xs).bind fun a => hexValueAcc a ys := by
  induction xs with
  | nil => intro acc ys; simp [hexValueAcc]
  | cons c cs ih =>
    intro acc ys
    rw [List.cons_append, hexValueAcc, hexValueAcc]
    match parseHexChar c with
    | some d => simp [ih]
    | none => simp

theorem hexValueAcc_hexDigits (n : Nat) :
    ∀ acc, hexValueAcc acc (hexDigits n) = some (acc * 16 ^ (hexDigits n).length + n) := by
  induction n using Nat.strong_induction_on with
  | _ n ih =>
    intro acc
    rw [hexDigits]
    split
    next h =>
      simp [hexValueAcc, parseHexChar_hexDigit n (by omega)]
      omega
    next h =>
      rw [hexValueAcc_append, ih (n / 16) (Nat.div_lt_self (by omega) (by norm_num))]
      simp [hexValueAcc, parseHexChar_hexDigit (n % 16) (Nat.mod_lt _ (by norm_num))]
      rw [pow_succ, ← mul_assoc]
      omega

theorem hexValueAcc_zeros (k : Nat) :
    ∀ l, hexValueAcc 0 (List.replicate k '0' ++ l) = hexValueAcc 0 l := by
  induction k with
  | zero => intro l; simp
  | succ m ih =>
    intro l
    rw [List.replicate_succ, List.cons_append, hexValueAcc]
    have h0 : parseHexChar '0' = some 0 := by decide
    rw [h0]
    simpa using ih l

theorem hexValue_format016X (v : Nat) : hexValueAcc 0 (format016X v) = some v := by
  rw [format016X, hexValueAcc_zeros, hexValueAcc_hexDigits]
  simp

theorem hexDigits_length_le (k : Nat) :
    ∀ n, 1 ≤ k → n < 16 ^ k → (hexDigits n).length ≤ k := by
  induction k with
  | zero => intro n h1 _; omega
  | succ m ih =>
    intro n _ h2
    rw [hexDigits]
    split
    next h => simp
    next h =>
      have hm : 1 ≤ m := by
        by_contra hc
        have : m = 0 := by omega
        subst this
        simp at h2
        omega
      have hdiv : n / 16 < 16 ^ m := by
        apply Nat.div_lt_of_lt_mul
        rw [pow_succ] at h2
        omega
      have := ih (n / 16) hm hdiv
      simp [List.length_append]
      omega

theorem format016X_length (v : Nat) (hv : v < 2 ^ 64) : (format016X v).length = 16 := by
  have h16 : (2 : Nat) ^ 64 = 16 ^ 16 := by norm_num
  have hle := hexDigits_length_le 16 v (by norm_num) (by omega)
  simp [format016X, List.length_append, List.length_replicate]
  omega

/-- Modelled from the spec: parsing one emitted scalar line with the target
language's literal syntax — indentation, `0x`, 16 hex digits, the `u64`
suffix and the separating comma. -/
def parseValueLineChars (l : List Char) : Option Nat :=
  match l.dropWhile (fun c => c = ' ') with
  | '0' :: 'x' :: rest =>
    if rest.length = 20 ∧ rest.drop 16 = ['u', '6', '4', ','] then hexValueAcc 0 (rest.take 16)
    else none
  | _ => none

theorem dropWhile_replicate_space (k : Nat) :
    ∀ l : List Char,
      (List.replicate k ' ' ++ l).dropWhile (fun c => c = ' ') = l.dropWhile (fun c => c = ' ') := by
  induction k with
  | zero => intro l; simp
  | succ m ih =>
    intro l
    rw [List.replicate_succ, List.cons_append, List.dropWhile_cons]
    simpa using ih l

theorem valueBody_split (v : Nat) :
    valueBody v = List.replicate 8 ' ' ++ ('0' :: 'x' :: (format016X v ++ "u64,".data)) := by
  have h0 : ("        0x" : String).data = List.replicate 8 ' ' ++ ['0', 'x'] := by decide
  simp [valueBody, h0, List.append_assoc]

theorem dropWhile_space_zero (l : List Char) :
    List.dropWhile (fun c => c = ' ') ('0' :: l) = '0' :: l := rfl

theorem parseValueLine_valueBody (v : Nat) (hv : v < 2 ^ 64) :
    parseValueLineChars (valueBody v) = some v := by
  have hform := format016X_length v hv
  rw [parseValueLineChars, valueBody_split, dropWhile_replicate_space, dropWhile_space_zero]
  have htake : (format016X v ++ "u64,".data).take 16 = format016X v := by
    rw [← hform]
    exact List.take_left _ _
  have hdrop : (format016X v ++ "u64,".data).drop 16 = ['u', '6', '4', ','] := by
    rw [← hform]
    exact List.drop_left _ _
  have hlen : (format016X v ++ "u64,".data).length = 20 := by
    simp [List.length_append, hform]
  show (if (format016X v ++ "u64,".data).length = 20 ∧
      (format016X v ++ "u64,".data).drop 16 = ['u', '6', '4', ','] then
    hexValueAcc 0 ((format016X v ++ "u64,".data).take 16) else none) = some v
  rw [if_pos ⟨hlen, hdrop⟩, htake, hexValue_format016X]

/-- Modelled from the spec: indentation is insignificant to the consumer. -/
def stripIndent (l : List Char) : List Char := l.dropWhile (fun c => c = ' ')

/-- Modelled from the spec: a closing bracket line (`]` or `],`). -/
def isCloseLine (l : List Char) : Bool :=
  stripIndent l = [']'] || stripIndent l = [']', ',']

/-- Modelled from the spec: an opening bracket line (`[`). -/
def isOpenLine (l : List Char) : Bool :=
  stripIndent l = ['[']

/-- Modelled from the spec: parse scalar lines until a closing bracket line,
returning the scalars and the lines following the close. -/
def parseValueList : List (List Char) → Option (List Nat × List (List Char))
  | [] => none
  | l :: ls =>
    if isCloseLine l then some ([], ls)
    else
      match parseValueLineChars l, parseValueList ls with
      | some v, some (vs, rest) => some (v :: vs, rest)
      | _, _ => none

theorem parseValueList_length (ls : List (List Char)) :
    ∀ vs rest, parseValueList ls = some (vs, rest) → rest.length < ls.length := by
  induction ls with
  | nil => simp [parseValueList]
  | cons l ls ih =>
    intro vs rest h
    rw [parseValueList] at h
    split at h
    · simp only [Option.some.injEq, Prod.mk.injEq] at h
      rw [← h.2]
      simp
    · split at h
      next v vs2 rest2 hv hrec =>
        simp only [Option.some.injEq, Prod.mk.injEq] at h
        rw [← h.2]
        have := ih vs2 rest2 hrec
        simp
        omega
      next => simp at h

/-- Modelled from the spec: parse a sequence of innermost blocks until a
closing bracket line, returning the blocks and the lines following the close. -/
def parseInnerList : List (List Char) → Option (List (List Nat) × List (List Char))
  | [] => none
  | l :: ls =>
    if isCloseLine l then some ([], ls)
    else if isOpenLine l then
      match h : parseValueList ls with
      | some (vs, rest) =>
        match parseInnerList rest with
        | some (inns, rest2) => some (vs :: inns, rest2)
        | none => none
      | none => none
    else none
termination_by ls => ls.length
decreasing_by
  have := parseValueList_length ls vs rest h
  simp
  omega

theorem parseInnerList_length (ls : List (List Char)) :
    ∀ inns rest, parseInnerList ls = some (inns, rest) → rest.length < ls.length := by
  induction ls using parseInnerList.induct with
  | case1 => simp [parseInnerList]
  | case2 l ls hclose =>
    intro inns rest h
    simp [parseInnerList, hclose] at h
    rw [← h.2]
    simp
  | case3 l ls hnc hop vs1 rest1 hv inns1 rest2 hrec ih =>
    intro inns rest h
    simp [parseInnerList, hnc, hop] at h
    split at h
    next vs' rest' heq =>
      rw [hv] at heq
      simp only [Option.some.injEq, Prod.mk.injEq] at heq
      obtain ⟨heq1, heq2⟩ := heq
      subst heq2
      split at h
      next inns' r2 hyp2 =>
        simp only [Option.some.injEq, Prod.mk.injEq] at h
        have ha := ih inns' r2 hyp2
        have hb := parseValueList_length ls vs1 rest1 hv
        rw [← h.2]
        simp
        omega
      next hyp2 => simp at h
    next heq => rw [hv] at heq; simp at heq
  | case4 l ls hnc hop vs1 rest1 hv hnone ih =>
    intro inns rest h
    simp [parseInnerList, hnc, hop] at h
    split at h
    next vs' rest' heq =>
      rw [hv] at heq
      simp only [Option.some.injEq, Prod.mk.injEq] at heq
      obtain ⟨heq1, heq2⟩ := heq
      subst heq2
      split at h
      next inns' r2 hyp2 => rw [hnone] at hyp2; simp at hyp2
      next hyp2 => simp at h
    next heq => rw [hv] at heq; simp at heq
  | case5 l ls hnc hop hv =>
    intro inns rest h
    simp [parseInnerList, hnc, hop] at h
    split at h
    next vs' rest' heq => rw [hv] at heq; simp at heq
    next heq => simp at h
  | case6 l ls hnc hno =>
    intro inns rest h
    simp [parseInnerList, hnc, hno] at h

/-- Modelled from the spec: parse a sequence of middle blocks until a closing
bracket line, returning the blocks and the lines following the close. -/
def parseMiddleList : List (List Char) → Option (List (List (List Nat)) × List (List Char))
  | [] => none
  | l :: ls =>
    if isCloseLine l then some ([], ls)
    else if isOpenLine l then
      match h : parseInnerList ls with
      | some (m, rest) =>
        match parseMiddleList rest with
        | some (ms, rest2) => some (m :: ms, rest2)
        | none => none
      | none => none
    else none
termination_by ls => ls.length
decreasing_by
  have := parseInnerList_length ls m rest h
  simp
  omega

/-- Modelled from the spec: parse the lines of a serialized table: an opening
bracket line, the middle blocks, and the final closing bracket line. -/
def parseTableLines : List (List Char) → Option (List (List (List Nat)))
  | [] => none
  | l :: ls =>
    if isOpenLine l then
      match parseMiddleList ls with
      | some (t, rest) => if rest = [[]] ∨ rest = [] then some t else none
      | none => none
    else none

/-- Modelled from the spec: parse serialized table text with the target
language's literal syntax (`serialize_as_literal` inverted by the consumer). -/
def parse_literal (str : String) : Option (List (List (List Nat))) :=
  parseTableLines (linesOf str)

theorem stripIndent_valueBody (v : Nat) :
    stripIndent (valueBody v) = '0' :: 'x' :: (format016X v ++ "u64,".data) := by
  rw [stripIndent, valueBody_split, dropWhile_replicate_space, dropWhile_space_zero]

theorem isCloseLine_valueBody (v : Nat) : isCloseLine (valueBody v) = false := by
  simp [isCloseLine, stripIndent_valueBody]

theorem parseValueList_append (vals : List Nat) :
    ∀ rest : List (List Char), (∀ v ∈ vals, v < 2 ^ 64) →
      parseValueList (vals.map valueBody ++ "    ],".data :: rest) = some (vals, rest) := by
  induction vals with
  | nil =>
    intro rest _
    rw [List.map_nil, List.nil_append, parseValueList, if_pos (by decide)]
  | cons v vs ih =>
    intro rest hb
    rw [List.map_cons, List.cons_append, parseValueList,
      if_neg (by simp [isCloseLine_valueBody]),
      parseValueLine_valueBody v (hb v (by simp)),
      ih rest (fun x hx => hb x (by simp [hx]))]

theorem parseInnerList_append (m : List (List Nat)) :
    ∀ c : List Char, isCloseLine c = true → ∀ rest : List (List Char),
      (∀ inn ∈ m, ∀ v ∈ inn, v < 2 ^ 64) →
      parseInnerList ((m.map innerLines).flatten ++ c :: rest) = some (m, rest) := by
  induction m with
  | nil =>
    intro c hc rest _
    rw [List.map_nil, List.flatten_nil, List.nil_append, parseInnerList, if_pos hc]
  | cons inn ms ih =>
    intro c hc rest hb
    have hbinn : ∀ v ∈ inn, v < 2 ^ 64 := hb inn (by simp)
    have hbms : ∀ x ∈ ms, ∀ v ∈ x, v < 2 ^ 64 := fun x hx => hb x (by simp [hx])
    rw [List.map_cons, List.flatten_cons, innerLines, List.cons_append, List.append_assoc,
      List.cons_append, parseInnerList, if_neg (by decide), if_pos (by decide)]
    split
    next vs' rest' heq =>
      rw [List.append_assoc, List.singleton_append,
        parseValueList_append inn ((ms.map innerLines).flatten ++ c :: rest) hbinn] at heq
      simp only [Option.some.injEq, Prod.mk.injEq] at heq
      obtain ⟨heq1, heq2⟩ := heq
      subst heq1
      subst heq2
      split
      next ms' rest2 heq2 =>
        rw [ih c hc rest hbms] at heq2
        simp only [Option.some.injEq, Prod.mk.injEq] at heq2
        rw [heq2.1, heq2.2]
      next heq2 =>
        rw [ih c hc rest hbms] at heq2
        simp at heq2
    next heq =>
      rw [List.append_assoc, List.singleton_append,
        parseValueList_append inn ((ms.map innerLines).flatten ++ c :: rest) hbinn] at heq
      simp at heq

theorem parseMiddleList_append (t : List (List (List Nat))) :
    ∀ c : List Char, isCloseLine c = true → ∀ rest : List (List Char),
      (∀ m ∈ t, ∀ inn ∈ m, ∀ v ∈ inn, v < 2 ^ 64) →
      parseMiddleList ((t.map middleLines).flatten ++ c :: rest) = some (t, rest) := by
  induction t with
  | nil =>
    intro c hc rest _
    rw [List.map_nil, List.flatten_nil, List.nil_append, parseMiddleList, if_pos hc]
  | cons m ts ih =>
    intro c hc rest hb
    have hbm : ∀ inn ∈ m, ∀ v ∈ inn, v < 2 ^ 64 := hb m (by simp)
    have hbts : ∀ x ∈ ts, ∀ inn ∈ x, ∀ v ∈ inn, v < 2 ^ 64 := fun x hx => hb x (by simp [hx])
    rw [List.map_cons, List.flatten_cons, middleLines, List.cons_append, List.append_assoc,
      List.cons_append, parseMiddleList, if_neg (by decide), if_pos (by decide)]
    split
    next m' rest' heq =>
      rw [List.append_assoc, List.singleton_append,
        parseInnerList_append m "    ],".data (by decide)
          ((ts.map middleLines).flatten ++ c :: rest) hbm] at heq
      simp only [Option.some.injEq, Prod.mk.injEq] at heq
      obtain ⟨heq1, heq2⟩ := heq
      subst heq1
      subst heq2
      split
      next ts' rest2 heq2 =>
        rw [ih c hc rest hbts] at heq2
        simp only [Option.some.injEq, Prod.mk.injEq] at heq2
        rw [heq2.1, heq2.2]
      next heq2 =>
        rw [ih c hc rest hbts] at heq2
        simp at heq2
    next heq =>
      rw [List.append_assoc, List.singleton_append,
        parseInnerList_append m "    ],".data (by decide)
          ((ts.map middleLines).flatten ++ c :: rest) hbm] at heq
      simp at heq

/-- The emitted literal parses back to the exact table (round trip). -/
theorem parse_serialize (t : List (List (List Nat)))
    (hb : ∀ m ∈ t, ∀ inn ∈ m, ∀ v ∈ inn, v < 2 ^ 64) :
    parse_literal (serialize_as_literal t) = some t := by
  rw [parse_literal, lines_serialize, tableLines, List.cons_append, List.cons_append,
    List.append_assoc, List.singleton_append]
  show (if isOpenLine "[".data then
      match parseMiddleList ((t.map middleLines).flatten ++ "]".data :: [[]]) with
      | some (t2, rest) => if rest = [[]] ∨ rest = [] then some t2 else none
      | none => none
    else none) = some t
  rw [if_pos (by decide), parseMiddleList_append t "]".data (by decide) [[]] hb]
  simp

theorem generate_table_lt (s : Nat → Nat) :
    ∀ m ∈ generate_table s, ∀ inn ∈ m, ∀ v ∈ inn, v < 2 ^ 64 := by
  intro m hm inn hinn v hv
  rw [generate_table] at hm
  obtain ⟨i, _, heq⟩ := List.mem_map.mp hm
  rw [← heq, genMiddle] at hinn
  obtain ⟨j, _, heq2⟩ := List.mem_map.mp hinn
  rw [← heq2, genInner] at hv
  obtain ⟨k, _, heq3⟩ := List.mem_map.mp hv
  rw [← heq3]
  exact Nat.mod_lt _ (by positivity)

/-- A concrete all-zero `[8][8][256]` table, used as a witness input. -/
def zeroTable : List (List (List Nat)) :=
  List.replicate 8 (List.replicate 8 (List.replicate 256 0))

/-- C1: serializing a populated `[8][8][256]` table of 64-bit values to the
literal text format and parsing that text back with the literal syntax
reconstructs a table of identical shape with identical values at every index
(exact integer equality). -/
theorem serialize_parse_roundtrip (t : List (List (List Nat)))
    (hshape : t.length = 8 ∧ ∀ m ∈ t, m.length = 8 ∧ ∀ inn ∈ m, inn.length = 256)
    (hval : ∀ m ∈ t, ∀ inn ∈ m, ∀ v ∈ inn, v < 2 ^ 64) :
    parse_literal (serialize_as_literal t) = some t :=
  parse_serialize t hval

/-- Witness for C1: the round trip at a concrete populated table. -/
theorem serialize_parse_roundtrip_witness :
    (zeroTable.length = 8 ∧ ∀ m ∈ zeroTable, m.length = 8 ∧ ∀ inn ∈ m, inn.length = 256) ∧
    (∀ m ∈ zeroTable, ∀ inn ∈ m, ∀ v ∈ inn, v < 2 ^ 64) ∧
    parse_literal (serialize_as_literal zeroTable) = some zeroTable := by
  have hs : zeroTable.length = 8 ∧ ∀ m ∈ zeroTable, m.length = 8 ∧
      ∀ inn ∈ m, inn.length = 256 := by
    refine ⟨List.length_replicate 8 _, fun m hm => ?_⟩
    rw [List.eq_of_mem_replicate hm]
    exact ⟨List.length_replicate 8 _, fun inn hinn => by
      rw [List.eq_of_mem_replicate hinn]; exact List.length_replicate 256 _⟩
  have hv : ∀ m ∈ zeroTable, ∀ inn ∈ m, ∀ v ∈ inn, v < 2 ^ 64 := by
    intro m hm inn hinn v hvm
    rw [List.eq_of_mem_replicate hm] at hinn
    rw [List.eq_of_mem_replicate hinn] at hvm
    rw [List.eq_of_mem_replicate hvm]
    positivity
  exact ⟨hs, hv, serialize_parse_roundtrip zeroTable hs hv⟩

/-- C2: for every run, the emitted table has exactly 8 outer elements,
8 middle elements each, 256 innermost elements each — 16384 scalars total. -/
theorem generate_table_shape (s : Nat → Nat) :
    (generate_table s).length = 8 ∧
    (generate_table s).map List.length = List.replicate 8 8 ∧
    (generate_table s).flatten.map List.length = List.replicate 64 256 ∧
    (generate_table s).flatten.flatten.length = 16384 := by
  have h2 : (generate_table s).map List.length = List.replicate 8 8 := by
    rw [List.eq_replicate_iff]
    refine ⟨by simp [generate_table], fun x hx => ?_⟩
    obtain ⟨m, hm, heq⟩ := List.mem_map.mp hx
    rw [generate_table] at hm
    obtain ⟨i, _, heq2⟩ := List.mem_map.mp hm
    rw [← heq, ← heq2]
    simp [genMiddle]
  have h3 : (generate_table s).flatten.map List.length = List.replicate 64 256 := by
    rw [List.eq_replicate_iff]
    constructor
    · rw [List.length_map, List.length_flatten, h2]
      simp [List.sum_replicate]
    · intro x hx
      obtain ⟨inn, hinn, heq⟩ := List.mem_map.mp hx
      obtain ⟨m, hm, hinn2⟩ := List.mem_flatten.mp hinn
      rw [generate_table] at hm
      obtain ⟨i, _, heq2⟩ := List.mem_map.mp hm
      rw [← heq2, genMiddle] at hinn2
      obtain ⟨j, _, heq3⟩ := List.mem_map.mp hinn2
      rw [← heq, ← heq3]
      simp [genInner]
  have h4 : (generate_table s).flatten.flatten.length = 16384 := by
    rw [List.length_flatten, h3]
    simp [List.sum_replicate]
  exact ⟨by simp [generate_table], h2, h3, h4⟩

/-- Exact shape of an emitted scalar line: 8 spaces, `0x`, 16 uppercase hex
digits, `u64` suffix and comma — 30 characters, one scalar. -/
def scalarLineOK (l : List Char) : Bool :=
  l.length = 30 && l.take 10 = "        0x".data &&
    ((l.drop 10).take 16).all isUpperHexDigit && l.drop 26 = "u64,".data

/-- Every emitted line is a bracket line, the final empty line, or exactly one
scalar line of the fixed format. -/
def emittedLineOK (l : List Char) : Bool :=
  l = "[".data || l = "]".data || l = "    [".data || l = "    ],".data ||
    l = ([] : List Char) || scalarLineOK l

theorem scalarLineOK_valueBody (v : Nat) (hv : v < 2 ^ 64) :
    scalarLineOK (valueBody v) = true := by
  have hform := format016X_length v hv
  have hassoc : valueBody v = "        0x".data ++ (format016X v ++ "u64,".data) := by
    rw [valueBody, List.append_assoc]
  have hlen : (valueBody v).length = 30 := by
    simp [valueBody, hform]
  have htake : (valueBody v).take 10 = "        0x".data := by
    rw [hassoc, show (10 : Nat) = ("        0x".data).length from rfl]
    exact List.take_left _ _
  have hdrop10 : (valueBody v).drop 10 = format016X v ++ "u64,".data := by
    rw [hassoc, show (10 : Nat) = ("        0x".data).length from rfl]
    exact List.drop_left _ _
  have hmid : ((valueBody v).drop 10).take 16 = format016X v := by
    rw [hdrop10, ← hform]
    exact List.take_left _ _
  have hdrop26 : (valueBody v).drop 26 = "u64,".data := by
    have h26 : ("        0x".data ++ format016X v).length = 26 := by
      simp [hform]
    rw [valueBody, ← h26]
    exact List.drop_left _ _
  rw [scalarLineOK, hlen, htake, hmid, hdrop26]
  simp [List.all_eq_true]
  intro c hc
  exact format016X_mem v c hc

/-- C3: every scalar in the emitted text is rendered as `0x`, exactly 16
uppercase hexadecimal digits, the `u64` suffix and a comma, one scalar per
line: every emitted line is a bracket line, the final empty line, or exactly
one scalar of that shape. -/
theorem emitted_lines_scalar_format (s : Nat → Nat) :
    (linesOf (run_script s)).all emittedLineOK = true := by
  rw [List.all_eq_true]
  intro l hl
  rw [lines_run_script] at hl
  rcases List.mem_append.mp hl with h | h
  · rcases tableLines_mem _ l h with h1 | h1 | h1 | h1 | ⟨m, hm, inn, hinn, v, hv, h1⟩ <;>
      subst h1
    · rw [emittedLineOK]
      simp
    · rw [emittedLineOK]
      simp
    · rw [emittedLineOK]
      simp
    · rw [emittedLineOK]
      simp
    · have hv64 := generate_table_lt s m hm inn hinn v hv
      rw [emittedLineOK, scalarLineOK_valueBody v hv64]
      simp
  · simp only [List.mem_singleton] at h
    subst h
    rw [emittedLineOK]
    simp

/-- The number of leading spaces of a line (its indentation). -/
def lineIndent (l : List Char) : Nat := (l.takeWhile (fun c => c = ' ')).length

theorem takeWhile_replicate_space (k : Nat) :
    ∀ l : List Char,
      (List.replicate k ' ' ++ l).takeWhile (fun c => c = ' ') =
        List.replicate k ' ' ++ l.takeWhile (fun c => c = ' ') := by
  induction k with
  | zero => intro l; simp
  | succ m ih =>
    intro l
    rw [List.replicate_succ, List.cons_append, List.takeWhile_cons]
    simp [ih l, List.replicate_succ]

theorem lineIndent_valueBody (v : Nat) : lineIndent (valueBody v) = 8 := by
  rw [lineIndent, valueBody_split, takeWhile_replicate_space]
  have h : List.takeWhile (fun c => c = ' ')
      ('0' :: 'x' :: (format016X v ++ "u64,".data)) = [] := rfl
  rw [h]
  simp

/-- Indentation as the code actually writes it: the outer brackets at column 0,
middle-block and inner-block bracket lines both at 4 spaces, scalar lines at
8 spaces (the final line is empty). -/
def emittedIndentOK (l : List Char) : Bool :=
  ((l = "[".data || l = "]".data || l = ([] : List Char)) && lineIndent l = 0) ||
    ((l = "    [".data || l = "    ],".data) && lineIndent l = 4) ||
    (scalarLineOK l && lineIndent l = 8)

/-- C6 (amended): in the emitted text the outer bracket lines are not
indented, the middle-block and inner-block bracket lines are each indented by
exactly 4 spaces (the inner level repeats the 4-space indentation instead of
doubling it), and every scalar line is indented by exactly 8 spaces. -/
theorem emitted_lines_indentation (s : Nat → Nat) :
    (linesOf (run_script s)).all emittedIndentOK = true := by
  rw [List.all_eq_true]
  intro l hl
  rw [lines_run_script] at hl
  rcases List.mem_append.mp hl with h | h
  · rcases tableLines_mem _ l h with h1 | h1 | h1 | h1 | ⟨m, hm, inn, hinn, v, hv, h1⟩ <;>
      subst h1
    · decide
    · decide
    · decide
    · decide
    · have hv64 := generate_table_lt s m hm inn hinn v hv
      rw [emittedIndentOK, scalarLineOK_valueBody v hv64, lineIndent_valueBody]
      simp
  · simp only [List.mem_singleton] at h
    subst h
    decide

theorem lines_take3 (s : Nat → Nat) :
    (linesOf (run_script s)).take 3 = ["[".data, "    [".data, "    [".data] := by
  obtain ⟨t2, ht⟩ : ∃ t2, generate_table s = genMiddle s 0 :: t2 :=
    ⟨_, by rw [generate_table, show List.range 8 = 0 :: [1, 2, 3, 4, 5, 6, 7] from rfl,
      List.map_cons, Nat.mul_zero]⟩
  obtain ⟨m2, hm⟩ : ∃ m2, genMiddle s 0 = genInner s 0 :: m2 :=
    ⟨_, by rw [genMiddle, show List.range 8 = 0 :: [1, 2, 3, 4, 5, 6, 7] from rfl,
      List.map_cons, Nat.mul_zero, Nat.add_zero]⟩
  rw [lines_run_script, tableLines, ht, List.map_cons, List.flatten_cons, middleLines, hm,
    List.map_cons, List.flatten_cons, innerLines]
  simp only [List.cons_append, List.append_assoc]
  rfl

/-- C6 counterexample: the first three emitted lines are the outer `[`,
the middle-block `[` and the inner-block `[`; the inner-block bracket line
(nesting depth 2) is indented by 4 spaces, not by 4*2 = 8 as the claim
requires. -/
theorem indentation_counterexample :
    (linesOf (run_script (fun _ => 0))).take 3 =
      ["[".data, "    [".data, "    [".data] ∧
    lineIndent ((linesOf (run_script (fun _ => 0))).getD 2 []) = 4 ∧
    ¬ lineIndent ((linesOf (run_script (fun _ => 0))).getD 2 []) = 2 * 4 := by
  have h3 := lines_take3 (fun _ => 0)
  have hget : (linesOf (run_script (fun _ => 0))).getD 2 [] = "    [".data := by
    have := congrArg (fun l => l.getD 2 []) h3
    simpa using this
  refine ⟨h3, ?_, ?_⟩
  · rw [hget]
    decide
  · rw [hget]
    decide

/-- The consumer's read-only indexing of the table: the entry at `[i][j][k]`. -/
def tableEntry (t : List (List (List Nat))) (i j k : Nat) : Nat :=
  ((t.getD i []).getD j []).getD k 0

theorem tableEntry_generate (s : Nat → Nat) (i j k : Nat)
    (hi : i < 8) (hj : j < 8) (hk : k < 256) :
    tableEntry (generate_table s) i j k = s (2048 * i + 256 * j + k) % 2 ^ 64 := by
  rw [tableEntry]
  simp [generate_table, genMiddle, genInner, List.getD_eq_getElem?_getD, List.getElem?_map,
    List.getElem?_range, hi, hj, hk, Nat.add_assoc]

/-- C4: every generated scalar lies in the full unsigned 64-bit range
`[0, 2^64)` — nothing negative or truncated — and for every index triple and
every 64-bit value there is a random stream under which the entry at that
index equals that value. -/
theorem table_entries_range_and_reachable :
    (∀ s : Nat → Nat, ∀ i j k, i < 8 → j < 8 → k < 256 →
      tableEntry (generate_table s) i j k < 2 ^ 64) ∧
    (∀ i j k v, i < 8 → j < 8 → k < 256 → v < 2 ^ 64 →
      ∃ s : Nat → Nat, tableEntry (generate_table s) i j k = v) := by
  constructor
  · intro s i j k hi hj hk
    rw [tableEntry_generate s i j k hi hj hk]
    exact Nat.mod_lt _ (by positivity)
  · intro i j k v hi hj hk hv
    refine ⟨fun _ => v, ?_⟩
    rw [tableEntry_generate _ i j k hi hj hk]
    exact Nat.mod_eq_of_lt hv

/-- Witness for C4 at concrete indices and a concrete 64-bit value. -/
theorem table_entries_range_and_reachable_witness :
    tableEntry (generate_table (fun _ => 3)) 0 0 0 < 2 ^ 64 ∧
    ∃ s : Nat → Nat, tableEntry (generate_table s) 7 7 255 = 12345 :=
  ⟨table_entries_range_and_reachable.1 (fun _ => 3) 0 0 0 (by norm_num) (by norm_num)
      (by norm_num),
   table_entries_range_and_reachable.2 7 7 255 12345 (by norm_num) (by norm_num)
      (by norm_num) (by norm_num)⟩

/-- The scalars of the emitted text, in emitted order: the value of every line
that parses as a scalar line. -/
def emittedScalars (s : Nat → Nat) : List Nat :=
  (linesOf (run_script s)).filterMap parseValueLineChars

theorem filterMap_valueBody (inn : List Nat) :
    (∀ v ∈ inn, v < 2 ^ 64) →
      (inn.map valueBody).filterMap parseValueLineChars = inn := by
  induction inn with
  | nil => intro _; rfl
  | cons v vs ih =>
    intro hb
    rw [List.map_cons, List.filterMap_cons, parseValueLine_valueBody v (hb v (by simp)),
      ih (fun x hx => hb x (by simp [hx]))]

theorem filterMap_innerLines (inn : List Nat) (hb : ∀ v ∈ inn, v < 2 ^ 64) :
    (innerLines inn).filterMap parseValueLineChars = inn := by
  have h1 : parseValueLineChars "    [".data = none := rfl
  have h2 : parseValueLineChars "    ],".data = none := rfl
  rw [innerLines, List.cons_append, List.filterMap_cons, h1, List.filterMap_append,
    filterMap_valueBody inn hb, List.filterMap_cons, h2, List.filterMap_nil, List.append_nil]

theorem filterMap_innerFlatten (m : List (List Nat)) :
    (∀ inn ∈ m, ∀ v ∈ inn, v < 2 ^ 64) →
      ((m.map innerLines).flatten).filterMap parseValueLineChars = m.flatten := by
  induction m with
  | nil => intro _; rfl
  | cons inn ms ih =>
    intro hb
    rw [List.map_cons, List.flatten_cons, List.filterMap_append,
      filterMap_innerLines inn (hb inn (by simp)), ih (fun x hx => hb x (by simp [hx])),
      List.flatten_cons]

theorem filterMap_middleLines (m : List (List Nat)) (hb : ∀ inn ∈ m, ∀ v ∈ inn, v < 2 ^ 64) :
    (middleLines m).filterMap parseValueLineChars = m.flatten := by
  have h1 : parseValueLineChars "    [".data = none := rfl
  have h2 : parseValueLineChars "    ],".data = none := rfl
  rw [middleLines, List.cons_append, List.filterMap_cons, h1, List.filterMap_append,
    filterMap_innerFlatten m hb, List.filterMap_cons, h2, List.filterMap_nil, List.append_nil]

theorem filterMap_middleFlatten (t : List (List (List Nat))) :
    (∀ m ∈ t, ∀ inn ∈ m, ∀ v ∈ inn, v < 2 ^ 64) →
      ((t.map middleLines).flatten).filterMap parseValueLineChars = t.flatten.flatten := by
  induction t with
  | nil => intro _; rfl
  | cons m ts ih =>
    intro hb
    rw [List.map_cons, List.flatten_cons, List.filterMap_append,
      filterMap_middleLines m (hb m (by simp)), ih (fun x hx => hb x (by simp [hx])),
      List.flatten_cons, List.flatten_append]

theorem emittedScalars_flatten (s : Nat → Nat) :
    emittedScalars s = (generate_table s).flatten.flatten := by
  have h1 : parseValueLineChars "[".data = none := rfl
  have h2 : parseValueLineChars "]".data = none := rfl
  have h3 : parseValueLineChars [] = none := rfl
  rw [emittedScalars, lines_run_script, List.filterMap_append, tableLines, List.cons_append,
    List.filterMap_cons, h1, List.filterMap_append, filterMap_middleFlatten _
      (generate_table_lt s), List.filterMap_cons, h2, List.filterMap_nil,
    List.filterMap_cons, h3, List.filterMap_nil, List.append_nil, List.append_nil]

theorem flatten_map_range (a b : Nat) (f : Nat → Nat) :
    ((List.range a).map (fun i => (List.range b).map (fun j => f (b * i + j)))).flatten =
      (List.range (a * b)).map f := by
  induction a with
  | zero => simp
  | succ m ih =>
    rw [List.range_succ, List.map_append, List.flatten_append, ih, Nat.succ_mul,
      List.range_add, List.map_append]
    simp [Nat.mul_comm]

theorem genMiddle_flatten (s : Nat → Nat) (base : Nat) :
    (genMiddle s base).flatten = (List.range 2048).map (fun n => s (base + n) % 2 ^ 64) := by
  rw [genMiddle, ← flatten_map_range 8 256 (fun n => s (base + n) % 2 ^ 64)]
  apply congrArg List.flatten
  apply List.map_congr_left
  intro j hj
  rw [genInner]
  apply List.map_congr_left
  intro k hk
  rw [Nat.add_assoc]

theorem generate_table_flatten (s : Nat → Nat) :
    (generate_table s).flatten.flatten = (List.range 16384).map (fun n => s n % 2 ^ 64) := by
  rw [generate_table, List.flatten_flatten, List.map_map,
    ← flatten_map_range 8 2048 (fun m => s m % 2 ^ 64)]
  apply congrArg List.flatten
  apply List.map_congr_left
  intro i hi
  simp [Function.comp, genMiddle_flatten s (2048 * i)]

/-- C5: the emitted text lists the scalars in row-major order consistent
with the indexing: the n-th emitted scalar (0-based) is the table entry at
`[n / 2048][(n / 256) % 8][n % 256]` (2048 = 8*256). -/
theorem emitted_scalars_row_major (s : Nat → Nat) :
    emittedScalars s = (List.range 16384).map
      (fun n => tableEntry (generate_table s) (n / 2048) (n / 256 % 8) (n % 256)) := by
  rw [emittedScalars_flatten, generate_table_flatten]
  apply List.map_congr_left
  intro n hn
  have hn16 := List.mem_range.mp hn
  rw [tableEntry_generate s _ _ _ (by omega) (by omega) (by omega)]
  have harg : 2048 * (n / 2048) + 256 * (n / 256 % 8) + n % 256 = n := by omega
  rw [harg]

theorem sum_map_range (n : Nat) (g : Nat → Nat) (c : Nat) (h : ∀ j < n, g j = c) :
    ((List.range n).map g).sum = n * c := by
  have hrep : (List.range n).map g = List.replicate n c := by
    rw [List.eq_replicate_iff]
    refine ⟨by simp, fun x hx => ?_⟩
    obtain ⟨j, hj, heq⟩ := List.mem_map.mp hx
    rw [← heq]
    exact h j (List.mem_range.mp hj)
  rw [hrep, List.sum_replicate]
  simp

theorem valueLine_len (v : Nat) (hv : v < 2 ^ 64) : (valueLine v).data.length = 31 := by
  have h10 : ("        0x".data).length = 10 := rfl
  have h4 : ("u64,".data).length = 4 := rfl
  rw [valueLine_data]
  simp [valueBody, List.length_append, format016X_length v hv, h10, h4]

theorem valueLine_count_nl (v : Nat) : (valueLine v).data.count '\n' = 1 := by
  rw [valueLine_data, List.count_append, List.count_eq_zero.mpr (noNL_valueBody v)]
  rfl

theorem inner_writes_len (s : Nat → Nat) (base : Nat) :
    ((innerWrites s base).map (fun w => w.data.length)).sum = 7949 := by
  rw [innerWrites, List.map_append, List.map_cons, List.sum_append, List.sum_cons,
    List.map_map, genInner, List.map_map]
  simp only [Function.comp_def]
  rw [sum_map_range 256 _ 31 (fun k _ => valueLine_len _ (Nat.mod_lt _ (by positivity)))]
  rfl

theorem inner_writes_count (s : Nat → Nat) (base : Nat) :
    ((innerWrites s base).map (fun w => w.data.count '\n')).sum = 258 := by
  rw [innerWrites, List.map_append, List.map_cons, List.sum_append, List.sum_cons,
    List.map_map, genInner, List.map_map]
  simp only [Function.comp_def]
  rw [sum_map_range 256 _ 1 (fun k _ => valueLine_count_nl _)]
  rfl

theorem middle_writes_len (s : Nat → Nat) (base : Nat) :
    ((middleWrites s base).map (fun w => w.data.length)).sum = 63605 := by
  rw [middleWrites, List.map_append, List.map_cons, List.sum_append, List.sum_cons,
    List.map_flatten, List.sum_flatten, List.map_map, List.map_map]
  simp only [Function.comp_def]
  rw [sum_map_range 8 _ 7949 (fun j _ => inner_writes_len s _)]
  rfl

theorem middle_writes_count (s : Nat → Nat) (base : Nat) :
    ((middleWrites s base).map (fun w => w.data.count '\n')).sum = 2066 := by
  rw [middleWrites, List.map_append, List.map_cons, List.sum_append, List.sum_cons,
    List.map_flatten, List.sum_flatten, List.map_map, List.map_map]
  simp only [Function.comp_def]
  rw [sum_map_range 8 _ 258 (fun j _ => inner_writes_count s _)]
  rfl

theorem count_flatten_chars (c : Char) (L : List (List Char)) :
    L.flatten.count c = (L.map (List.count c)).sum := by
  induction L with
  | nil => rfl
  | cons x xs ih => rw [List.flatten_cons, List.count_append, ih, List.map_cons, List.sum_cons]

/-- C10: regardless of the values drawn, the emitted file always has
exactly 16530 newline-terminated lines and exactly 508844 bytes, because every
scalar is zero-padded to a fixed width of 16 hexadecimal digits. -/
theorem output_fixed_size (s : Nat → Nat) :
    (run_script s).data.count '\n' = 16530 ∧ (run_script s).data.length = 508844 := by
  have hdata : (run_script s).data = ((topWrites s).map String.data).flatten := by
    rw [run_script, join_data, script_writes_eq]
  constructor
  · rw [hdata, count_flatten_chars, List.map_map, topWrites, List.map_append, List.map_cons,
      List.sum_append, List.sum_cons, List.map_flatten, List.sum_flatten, List.map_map,
      List.map_map]
    simp only [Function.comp_def]
    rw [sum_map_range 8 _ 2066 (fun i _ => middle_writes_count s _)]
    rfl
  · rw [hdata, List.length_flatten, List.map_map, topWrites, List.map_append, List.map_cons,
      List.sum_append, List.sum_cons, List.map_flatten, List.sum_flatten, List.map_map,
      List.map_map]
    simp only [Function.comp_def]
    rw [sum_map_range 8 _ 63605 (fun i _ => middle_writes_len s _)]
    rfl

/-- C9: the emitted file content is a deterministic function of the
sequence of 16384 64-bit values drawn: two runs whose random sources yield
identical value sequences produce byte-for-byte identical output. -/
theorem output_deterministic (s1 s2 : Nat → Nat)
    (h : ∀ n < 16384, s1 n % 2 ^ 64 = s2 n % 2 ^ 64) :
    run_script s1 = run_script s2 := by
  have ht : generate_table s1 = generate_table s2 := by
    rw [generate_table, generate_table]
    apply List.map_congr_left
    intro i hi
    rw [genMiddle, genMiddle]
    apply List.map_congr_left
    intro j hj
    rw [genInner, genInner]
    apply List.map_congr_left
    intro k hk
    have hi8 := List.mem_range.mp hi
    have hj8 := List.mem_range.mp hj
    have hk256 := List.mem_range.mp hk
    exact h _ (by omega)
  rw [run_script_eq_serialize, run_script_eq_serialize, ht]

/-- Witness for C9: two pointwise different streams that draw the same 16384
values produce the same file. -/
theorem output_deterministic_witness :
    run_script (fun _ => 0) = run_script (fun n => if n < 16384 then 0 else 1) :=
  output_deterministic _ _ (fun n hn => by simp [hn])

/-- The fixed output filename the script opens relative to the working
directory. -/
def output_filename : String := "table_values.rs"

/-- Modelled from the spec: the working directory as a map from names to file
contents; `open("table_values.rs", "w")` followed by the script body replaces
whatever that name held with the newly generated serialization, without
confirmation. -/
def run_script_fs (fs : String → Option String) (s : Nat → Nat) : String → Option String :=
  fun name => if name = output_filename then some (run_script s) else fs name

/-- C7: the generator writes the fixed name `table_values.rs` relative to
the working directory, overwriting without confirmation: after any successful
run the destination holds exactly the new serialization — whatever the file
held before, including after a previous run — and no other name is touched. -/
theorem overwrite_fixed_destination :
    output_filename = "table_values.rs" ∧
    (∀ fs : String → Option String, ∀ s : Nat → Nat,
      run_script_fs fs s output_filename = some (run_script s)) ∧
    (∀ fs : String → Option String, ∀ s1 s2 : Nat → Nat,
      run_script_fs (run_script_fs fs s1) s2 output_filename = some (run_script s2)) ∧
    (∀ fs : String → Option String, ∀ s : Nat → Nat, ∀ name : String,
      name ≠ output_filename → run_script_fs fs s name = fs name) := by
  refine ⟨rfl, fun fs s => ?_, fun fs s1 s2 => ?_, fun fs s name hname => ?_⟩
  · rw [run_script_fs, if_pos rfl]
  · rw [run_script_fs, if_pos rfl]
  · rw [run_script_fs, if_neg hname]

/-- Witness for C7: a run over a directory already holding stale content at
the destination leaves exactly the fresh serialization there and leaves other
names untouched. -/
theorem overwrite_fixed_destination_witness :
    run_script_fs (fun _ => some "stale") (fun _ => 0) output_filename =
      some (run_script (fun _ => 0)) ∧
    run_script_fs (fun _ => some "stale") (fun _ => 0) "other.rs" = some "stale" :=
  ⟨overwrite_fixed_destination.2.1 (fun _ => some "stale") (fun _ => 0),
   overwrite_fixed_destination.2.2.2 (fun _ => some "stale") (fun _ => 0) "other.rs"
     (by decide)⟩

/-- Outcome of a run under an I/O oracle: the result surfaced to the caller,
and whether the file handle ended up released. -/
structure IORun where
  result : Except String String
  handleClosed : Bool

/-- Modelled from the spec: the write sequence runs in order against a
destination that may become unwritable; the oracle says whether the i-th
`f.write` succeeds, and the first failing write raises an I/O error. -/
def runWritesFrom (oracle : Nat → Bool) : Nat → String → List String → Except String String
  | _, acc, [] => Except.ok acc
  | i, acc, w :: ws =>
    if oracle i then runWritesFrom oracle (i + 1) (acc ++ w) ws
    else Except.error "write failed"

/-- Modelled from the spec: leaving the scoped acquisition (`with`) closes the
handle on both exit paths — normal completion or exception — and re-raises
the body's outcome. -/
def closeOutcome : Except String String → IORun
  | Except.ok content => ⟨Except.ok content, true⟩
  | Except.error e => ⟨Except.error e, true⟩

/-- Embedding of `with open("table_values.rs", "w") as f:` around the script
body: the body writes in order inside the scoped acquisition. -/
def run_script_outcome (oracle : Nat → Bool) (s : Nat → Nat) : IORun :=
  closeOutcome (runWritesFrom oracle 0 "" (script_writes s))

theorem closeOutcome_handleClosed (x : Except String String) :
    (closeOutcome x).handleClosed = true := by
  cases x <;> rfl

theorem runWritesFrom_ok (oracle : Nat → Bool) (ws : List String) :
    ∀ i acc, (∀ j < ws.length, oracle (i + j) = true) →
      runWritesFrom oracle i acc ws = Except.ok (acc ++ String.join ws) := by
  induction ws with
  | nil =>
    intro i acc _
    rw [runWritesFrom]
    rw [show String.join [] = "" from rfl, String.append_empty]
  | cons w ws ih =>
    intro i acc hall
    rw [runWritesFrom, if_pos (by simpa using hall 0 (by simp)), join_cons,
      ih (i + 1) (acc ++ w) (fun j hj => by
        have := hall (j + 1) (by simpa using hj)
        rwa [show i + (j + 1) = i + 1 + j from by omega] at this),
      String.append_assoc]

theorem runWritesFrom_err (oracle : Nat → Bool) (ws : List String) :
    ∀ i acc, (∃ j < ws.length, oracle (i + j) = false) →
      ∃ e, runWritesFrom oracle i acc ws = Except.error e := by
  induction ws with
  | nil =>
    intro i acc h
    obtain ⟨j, hj, _⟩ := h
    simp at hj
  | cons w ws ih =>
    intro i acc h
    by_cases hi : oracle i = true
    · obtain ⟨j, hj, hfalse⟩ := h
      match j with
      | 0 =>
        rw [Nat.add_zero] at hfalse
        rw [hfalse] at hi
        simp at hi
      | Nat.succ j2 =>
        have hrec : ∃ j3 < ws.length, oracle (i + 1 + j3) = false := by
          refine ⟨j2, by simpa using hj, ?_⟩
          rwa [show i + 1 + j2 = i + (j2 + 1) from by omega]
        obtain ⟨e, he⟩ := ih (i + 1) (acc ++ w) hrec
        exact ⟨e, by rw [runWritesFrom, if_pos hi, he]⟩
    · exact ⟨"write failed", by rw [runWritesFrom, if_neg hi]⟩

/-- C8: when a write to the destination fails, the I/O error surfaces to
the caller instead of being silently swallowed, and the file handle is
released on every exit path, including the I/O failure path; when every write
succeeds, the destination receives the full serialization. -/
theorem io_error_surfaces_handle_closed (oracle : Nat → Bool) (s : Nat → Nat) :
    (run_script_outcome oracle s).handleClosed = true ∧
    ((∃ i < (script_writes s).length, oracle i = false) →
      ∃ e, (run_script_outcome oracle s).result = Except.error e) ∧
    ((∀ i < (script_writes s).length, oracle i = true) →
      (run_script_outcome oracle s).result = Except.ok (run_script s)) := by
  refine ⟨?_, ?_, ?_⟩
  · rw [run_script_outcome]
    exact closeOutcome_handleClosed _
  · intro h
    obtain ⟨i, hi, hfalse⟩ := h
    obtain ⟨e, he⟩ := runWritesFrom_err oracle (script_writes s) 0 ""
      ⟨i, hi, by simpa using hfalse⟩
    rw [run_script_outcome, he]
    exact ⟨e, rfl⟩
  · intro hall
    have hok := runWritesFrom_ok oracle (script_writes s) 0 ""
      (fun j hj => by simpa using hall j hj)
    rw [run_script_outcome, hok, String.empty_append, run_script]
    rfl

/-- Witness for C8: an oracle that fails the first write surfaces an error
with the handle closed; the all-success oracle writes the full content. -/
theorem io_error_surfaces_handle_closed_witness :
    (run_script_outcome (fun _ => false) (fun _ => 0)).handleClosed = true ∧
    (∃ e, (run_script_outcome (fun _ => false) (fun _ => 0)).result = Except.error e) ∧
    (run_script_outcome (fun _ => true) (fun _ => 0)).result =
      Except.ok (run_script (fun _ => 0)) := by
  have hpos : 0 < (script_writes (fun _ : Nat => (0 : Nat))).length := by
    rw [script_writes_eq, topWrites]
    simp
  exact ⟨(io_error_surfaces_handle_closed (fun _ => false) (fun _ => 0)).1,
    (io_error_surfaces_handle_closed (fun _ => false) (fun _ => 0)).2.1 ⟨0, hpos, rfl⟩,
    (io_error_surfaces_handle_closed (fun _ => true) (fun _ => 0)).2.2 (fun i _ => rfl)⟩
